import Mathlib

/-!
Verification of the feature-extraction and ARIMA-wrapper notebook
(`part2_modeling.ipynb`).

The two functions of the notebook, `extract_time_series_features` and
`build_arima_model`, are shallowly embedded below.  Timestamps and signal
values are rational numbers; a pandas `NaN` cell is `Option.none`.  Where a
pandas statistic is irrational (standard deviation, skewness), the feature
cell stores an equivalent rational representative (the square, resp. the
sign-preserving square); definedness (NaN-ness) is unchanged by this
representation and is what the trimming rule consumes.
-/

namespace TS

/-- The arithmetic mean of a list of rationals (`np.mean`; `0/0 = 0` on `[]`). -/
def mean (xs : List ℚ) : ℚ := xs.sum / xs.length

/-- Sum of squared deviations from the mean (the `m2` sum of pandas `nanskew`). -/
def sumSqDev (xs : List ℚ) : ℚ := (xs.map (fun x => (x - mean xs) ^ 2)).sum

/-- Sum of cubed deviations from the mean (the `m3` sum of pandas `nanskew`). -/
def sumCubeDev (xs : List ℚ) : ℚ := (xs.map (fun x => (x - mean xs) ^ 3)).sum

/-- Sum of fourth powers of deviations from the mean (the `m4` sum of pandas `nankurt`). -/
def sumQuadDev (xs : List ℚ) : ℚ := (xs.map (fun x => (x - mean xs) ^ 4)).sum

/-- The guard `np.all(x == x[0])` of `compute_autocorr`: every sample equals the
first one.  (On the empty list this is vacuously true, as for `np.all`.) -/
def AllEq (xs : List ℚ) : Prop := ∀ v ∈ xs, v = xs.headD 0

instance (xs : List ℚ) : Decidable (AllEq xs) :=
  List.decidableBAll (fun v => v = xs.headD 0) xs

/-- The lag-1 autocorrelation `acf(x, nlags=1, fft=False)[1]` of statsmodels
(`adjusted=False`): the lag-1 autocovariance sum over the lag-0 autocovariance
sum (the `1/n` normalizations of both autocovariances cancel). -/
def acfLag1 (xs : List ℚ) : ℚ :=
  ((xs.zip xs.tail).map (fun p => (p.1 - mean xs) * (p.2 - mean xs))).sum / sumSqDev xs

/-- `compute_autocorr` from `extract_time_series_features`: undefined (`none`)
for windows with fewer than 2 samples or with all samples equal, otherwise the
statsmodels lag-1 autocorrelation.  The `try/except` of the source returning
`np.nan` is modelled by totality of this function with `none` as NaN. -/
def compute_autocorr (xs : List ℚ) : Option ℚ :=
  if xs.length < 2 then none
  else if AllEq xs then none
  else some (acfLag1 xs)

/-- The specification's direct (non-FFT) definition of the normalized lag-1
autocovariance: the autocovariance at lag 1 (normalized by `n`) divided by the
autocovariance at lag 0 (the variance, also normalized by `n`). -/
def specAutocovNorm1 (xs : List ℚ) : ℚ :=
  (((xs.zip xs.tail).map (fun p => (p.1 - mean xs) * (p.2 - mean xs))).sum
      / (xs.length : ℚ)) / (sumSqDev xs / (xs.length : ℚ))

theorem sq_list_sum_nonneg (l : List ℚ) : 0 ≤ (l.map (fun x => x ^ 2)).sum := by
  induction l with
  | nil => simp
  | cons a tl ih =>
    simp only [List.map_cons, List.sum_cons]
    exact add_nonneg (sq_nonneg a) ih

theorem sq_list_sum_eq_zero {l : List ℚ} (h : (l.map (fun x => x ^ 2)).sum = 0) :
    ∀ x ∈ l, x = 0 := by
  induction l with
  | nil => simp
  | cons a tl ih =>
    simp only [List.map_cons, List.sum_cons] at h
    have htl : 0 ≤ (tl.map (fun x => x ^ 2)).sum := sq_list_sum_nonneg tl
    have ha2 : a ^ 2 = 0 := by nlinarith [sq_nonneg a]
    have ha : a = 0 := by
      have := sq_eq_zero_iff.mp ha2
      exact this
    intro x hx
    rcases List.mem_cons.mp hx with hx | hx
    · simpa [hx] using ha
    · exact ih (by nlinarith [sq_nonneg a]) x hx

theorem sumSqDev_nonneg (xs : List ℚ) : 0 ≤ sumSqDev xs := by
  have : sumSqDev xs = ((xs.map (fun x => x - mean xs)).map (fun x => x ^ 2)).sum := by
    simp [sumSqDev, List.map_map, Function.comp_def]
  rw [this]
  exact sq_list_sum_nonneg _

theorem sumSqDev_pos_of_not_allEq (xs : List ℚ) (h2 : 2 ≤ xs.length)
    (h : ¬ AllEq xs) : 0 < sumSqDev xs := by
  rcases lt_or_eq_of_le (sumSqDev_nonneg xs) with hlt | heq
  · exact hlt
  · exfalso
    apply h
    have hz : ((xs.map (fun x => x - mean xs)).map (fun x => x ^ 2)).sum = 0 := by
      have : sumSqDev xs = ((xs.map (fun x => x - mean xs)).map (fun x => x ^ 2)).sum := by
        simp [sumSqDev, List.map_map, Function.comp_def]
      rw [← this, ← heq]
    have hall : ∀ x ∈ xs, x = mean xs := by
      intro x hx
      have hmem : x - mean xs ∈ xs.map (fun x => x - mean xs) :=
        List.mem_map_of_mem _ hx
      have := sq_list_sum_eq_zero hz _ hmem
      linarith [this]
    intro v hv
    have hne : xs ≠ [] := by
      intro hnil
      rw [hnil] at h2
      simp at h2
    have hhead : xs.headD 0 ∈ xs := by
      cases xs with
      | nil => exact absurd rfl hne
      | cons a tl => simp
    rw [hall v hv, hall _ hhead]

/-- C3: per-window lag-1 autocorrelation is undefined exactly on degenerate
windows (fewer than 2 samples, or all samples equal), and otherwise equals the
direct normalized lag-1 autocovariance; the computation is total (any source
exception is recorded as NaN), and on the non-degenerate branch the
normalizing variance sum is strictly positive, so no division by zero occurs. -/
theorem c3_compute_autocorr_spec (xs : List ℚ) :
    ((xs.length < 2 ∨ AllEq xs) → compute_autocorr xs = none) ∧
    (2 ≤ xs.length → ¬ AllEq xs →
      compute_autocorr xs = some (specAutocovNorm1 xs) ∧ 0 < sumSqDev xs) := by
  constructor
  · intro h
    rcases h with h | h
    · simp [compute_autocorr, h]
    · by_cases hlen : xs.length < 2
      · simp [compute_autocorr, hlen]
      · simp [compute_autocorr, hlen, h]
  · intro hlen hne
    have hpos : 0 < sumSqDev xs := sumSqDev_pos_of_not_allEq xs hlen hne
    refine ⟨?_, hpos⟩
    have hlt : ¬ xs.length < 2 := not_lt.mpr hlen
    have hn : (xs.length : ℚ) ≠ 0 := by
      have : 0 < xs.length := lt_of_lt_of_le (by norm_num) hlen
      exact_mod_cast Nat.pos_iff_ne_zero.mp this
    have hS : sumSqDev xs ≠ 0 := ne_of_gt hpos
    have : acfLag1 xs = specAutocovNorm1 xs := by
      unfold acfLag1 specAutocovNorm1
      field_simp
    simp [compute_autocorr, hlt, hne, this]

/-- Witness for C3 at concrete windows: a constant window is undefined, and a
non-degenerate window takes the direct normalized-autocovariance value. -/
theorem c3_witness :
    compute_autocorr [4, 4, 4] = none ∧
    compute_autocorr [0, 1, 0] = some (specAutocovNorm1 [0, 1, 0]) := by
  constructor
  · exact (c3_compute_autocorr_spec [4, 4, 4]).1 (Or.inr (by decide))
  · exact ((c3_compute_autocorr_spec [0, 1, 0]).2 (by decide) (by decide)).1

/-- Position of the first row inside the pandas time-based rolling window
ending at row `i` (an offset window, `signal.rolling(f'{window_size}s')`, is
closed on the right): the first position `j ≤ i` whose timestamp satisfies
`t i - window_size < t j`. -/
def windowStart (t : List ℚ) (w : ℚ) (i : ℕ) : ℕ :=
  (t.take (i + 1)).findIdx (fun v => decide (t.getD i 0 - w < v))

/-- The row positions of the rolling window ending at row `i`: the contiguous
slice of positions from `windowStart` up to and including `i` itself. -/
def windowIdxs (t : List ℚ) (w : ℚ) (i : ℕ) : List ℕ :=
  List.range' (windowStart t w i) (i + 1 - windowStart t w i)

/-- The samples of the signal `vals` falling in the window ending at row `i`. -/
def windowVals (t : List ℚ) (w : ℚ) (vals : List ℚ) (i : ℕ) : List ℚ :=
  (windowIdxs t w i).map (fun j => vals.getD j 0)

theorem windowStart_le (t : List ℚ) (w : ℚ) (i : ℕ) (hi : i < t.length) :
    windowStart t w i ≤ i + 1 := by
  have h := @List.findIdx_le_length ℚ (fun v => decide (t.getD i 0 - w < v))
      (t.take (i + 1))
  have hlen : (t.take (i + 1)).length = i + 1 := by
    simp [List.length_take]
    omega
  rw [hlen] at h
  exact h

theorem getElem_take_getD (t : List ℚ) (i j : ℕ) (hj : j < i + 1) (hjt : j < t.length)
    (hl : j < (t.take (i + 1)).length) :
    (t.take (i + 1)).get ⟨j, hl⟩ = t.getD j 0 := by
  simp [List.get_eq_getElem, List.getElem_take, List.getD_eq_getElem?_getD,
    List.getElem?_eq_getElem, hjt]

/-- C5: on a time-sorted index, the rolling window ending at row `i` contains
exactly the rows at or before `i` whose timestamp is less than `window_size`
seconds before row `i`'s timestamp; and on a concretely irregular index two
windows of the same duration contain different numbers of samples. -/
theorem c5_window_by_elapsed_time (t : List ℚ) (w : ℚ) (i j : ℕ)
    (hs : t.Sorted (· ≤ ·)) (hi : i < t.length) :
    (j ∈ windowIdxs t w i ↔ j ≤ i ∧ t.getD i 0 - t.getD j 0 < w) ∧
    (windowIdxs [0, 1, 2, 50] 3 2).length ≠ (windowIdxs [0, 1, 2, 50] 3 3).length := by
  constructor
  case right =>
    have h1 : windowStart [0, 1, 2, 50] 3 2 = 0 := by
      norm_num [windowStart, List.findIdx_cons]
    have h2 : windowStart [0, 1, 2, 50] 3 3 = 3 := by
      norm_num [windowStart, List.findIdx_cons]
    simp [windowIdxs, h1, h2]
  case left =>
    have hlen : (t.take (i + 1)).length = i + 1 := by
      simp [List.length_take]
      omega
    have hstart := windowStart_le t w i hi
    have hsorted : (t.take (i + 1)).Sorted (· ≤ ·) :=
      List.Pairwise.sublist (List.take_sublist (i + 1) t) hs
    constructor
    · intro hj
      obtain ⟨k, hk, rfl⟩ := List.mem_range'.mp hj
      have hji : windowStart t w i + 1 * k ≤ i := by omega
      refine ⟨hji, ?_⟩
      have hslt : windowStart t w i < (t.take (i + 1)).length := by omega
      have hjlt : windowStart t w i + 1 * k < (t.take (i + 1)).length := by omega
      have hp0 := @List.findIdx_getElem ℚ (fun v => decide (t.getD i 0 - w < v))
          (t.take (i + 1)) hslt
      have hp1 : t.getD i 0 - w < (t.take (i + 1)).get ⟨windowStart t w i, hslt⟩ := by
        have h2 := of_decide_eq_true hp0
        simpa [List.get_eq_getElem, windowStart] using h2
      have hmono : (t.take (i + 1)).get ⟨windowStart t w i, hslt⟩ ≤
          (t.take (i + 1)).get ⟨windowStart t w i + 1 * k, hjlt⟩ :=
        hsorted.rel_get_of_le (a := ⟨windowStart t w i, hslt⟩)
            (b := ⟨windowStart t w i + 1 * k, hjlt⟩) (by
              simp only [Fin.mk_le_mk]
              omega)
      rw [getElem_take_getD t i _ (by omega) (by omega) hjlt] at hmono
      linarith
    · rintro ⟨hji, hlt⟩
      have hsj : windowStart t w i ≤ j := by
        by_contra hjs
        push_neg at hjs
        have hjl : j < (t.take (i + 1)).length := by omega
        have hfalse := @List.not_of_lt_findIdx ℚ (fun v => decide (t.getD i 0 - w < v))
            (t.take (i + 1)) j hjs
        have hne := of_decide_eq_false hfalse
        apply hne
        have hgd : (t.take (i + 1)).get ⟨j, hjl⟩ = t.getD j 0 :=
          getElem_take_getD t i j (by omega) (by omega) hjl
        rw [List.get_eq_getElem] at hgd
        rw [hgd]
        linarith
      exact List.mem_range'.mpr ⟨j - windowStart t w i, by omega, by omega⟩

/-- Witness for C5: on the sorted index `[0, 5, 20]` with a 10-second window,
row 1 (15 seconds before row 2) is outside the window ending at row 2, while
row 2 itself is inside it. -/
theorem c5_witness :
    (¬ 1 ∈ windowIdxs [0, 5, 20] 10 2) ∧ 2 ∈ windowIdxs [0, 5, 20] 10 2 := by
  constructor
  · intro hmem
    have h := ((c5_window_by_elapsed_time [0, 5, 20] 10 2 1
        (by decide) (by decide)).1).mp hmem
    have h2 : ¬ ((20 : ℚ) - 5 < 10) := by norm_num
    exact h2 (by simpa using h.2)
  · exact ((c5_window_by_elapsed_time [0, 5, 20] 10 2 2
      (by decide) (by decide)).1).mpr ⟨le_refl 2, by norm_num⟩

/-- Rolling mean cell (`.rolling(...).mean()`; offset windows have
`min_periods=1`, so any nonempty window has a value). -/
def meanCell (xs : List ℚ) : Option ℚ :=
  if xs.length = 0 then none else some (mean xs)

/-- Rolling standard-deviation cell (`.rolling(...).std()`, `ddof=1`): NaN on
fewer than two samples.  The cell stores the square of the standard deviation
(the sample variance, in the sum-of-squares form of the rolling variance
kernel); the standard deviation is its nonnegative square root, so definedness
is represented exactly. -/
def varCell (xs : List ℚ) : Option ℚ :=
  if xs.length < 2 then none
  else some (((xs.map (fun x => x ^ 2)).sum - (xs.length : ℚ) * mean xs ^ 2)
      / ((xs.length : ℚ) - 1))

/-- Rolling minimum cell (`.rolling(...).min()`). -/
def minCell (xs : List ℚ) : Option ℚ := xs.min?

/-- Rolling maximum cell (`.rolling(...).max()`). -/
def maxCell (xs : List ℚ) : Option ℚ := xs.max?

/-- Rolling quantile cell (`.rolling(...).quantile(q)`) with pandas' default
linear interpolation between order statistics of the sorted window. -/
def quantileCell (q : ℚ) (xs : List ℚ) : Option ℚ :=
  if xs.length = 0 then none
  else
    let s := xs.mergeSort (fun a b => decide (a ≤ b))
    let pos : ℚ := q * ((xs.length : ℚ) - 1)
    let lo : ℕ := (⌊pos⌋).toNat
    let frac : ℚ := pos - (lo : ℚ)
    some (s.getD lo 0 + frac * (s.getD (lo + 1) (s.getD lo 0) - s.getD lo 0))

/-- Rolling median cell (`.rolling(...).median()`, the 0.5-quantile under
linear interpolation). -/
def medianCell (xs : List ℚ) : Option ℚ := quantileCell (1 / 2) xs

/-- The skewness cell of `lambda x: pd.Series(x).skew()` (pandas `nanskew`):
NaN below 3 samples, 0 on a zero-variance window, and otherwise the adjusted
Fisher-Pearson estimator `n * sqrt(n-1) / (n-2) * m3 / m2^1.5` over the
deviation sums `m3`, `m2`.  The cell stores the sign-preserving square
`skew * |skew|`, which is rational; definedness and sign are represented
exactly. -/
def skewCell (xs : List ℚ) : Option ℚ :=
  if xs.length < 3 then none
  else if sumSqDev xs = 0 then some 0
  else some (((xs.length : ℚ) ^ 2 * ((xs.length : ℚ) - 1) / ((xs.length : ℚ) - 2) ^ 2)
      * (sumCubeDev xs * |sumCubeDev xs|) / sumSqDev xs ^ 3)

/-- The kurtosis cell of `lambda x: pd.Series(x).kurt()` (pandas `nankurt`):
NaN below 4 samples, 0 on a zero-variance window, and otherwise the
dof-adjusted excess kurtosis
`n(n+1)(n-1) m4 / ((n-2)(n-3) m2^2) - 3(n-1)^2 / ((n-2)(n-3))` over the
deviation sums `m4`, `m2`; this value is rational and stored exactly. -/
def kurtCell (xs : List ℚ) : Option ℚ :=
  if xs.length < 4 then none
  else if sumSqDev xs = 0 then some 0
  else some ((xs.length : ℚ) * ((xs.length : ℚ) + 1) * ((xs.length : ℚ) - 1) * sumQuadDev xs
        / (((xs.length : ℚ) - 2) * ((xs.length : ℚ) - 3) * sumSqDev xs ^ 2)
      - 3 * ((xs.length : ℚ) - 1) ^ 2 / (((xs.length : ℚ) - 2) * ((xs.length : ℚ) - 3)))

/-- A DataFrame column: numeric (features are extracted) or non-numeric
(silently skipped by the `is_numeric_dtype` test). -/
inductive Col where
  | num (vals : List ℚ) : Col
  | txt (vals : List String) : Col
deriving DecidableEq

/-- The preprocessed signal table: a time index plus named columns. -/
structure Table where
  index : List ℚ
  cols : List (String × Col)

/-- One rolling feature column: the per-row statistic of the trailing window. -/
def rollingCol (t : List ℚ) (w : ℚ) (vals : List ℚ) (f : List ℚ → Option ℚ) :
    List (Option ℚ) :=
  (List.range t.length).map (fun i => f (windowVals t w vals i))

/-- Elementwise subtraction of two feature cells; NaN propagates (as in the
pandas Series subtractions `rolling_max - rolling_min`, `q75 - q25`). -/
def sub2 (a b : Option ℚ) : Option ℚ := Option.map₂ (fun x y => x - y) a b

/-- The twelve feature columns of one numeric signal, keyed and ordered as the
`features` dict insertions of the source. -/
def featsOfSignal (t : List ℚ) (w : ℚ) (name : String) (vals : List ℚ) :
    List (String × List (Option ℚ)) :=
  [(name ++ "_mean", rollingCol t w vals meanCell),
   (name ++ "_std", rollingCol t w vals varCell),
   (name ++ "_min", rollingCol t w vals minCell),
   (name ++ "_max", rollingCol t w vals maxCell),
   (name ++ "_range",
     List.zipWith sub2 (rollingCol t w vals maxCell) (rollingCol t w vals minCell)),
   (name ++ "_median", rollingCol t w vals medianCell),
   (name ++ "_q25", rollingCol t w vals (quantileCell (1 / 4))),
   (name ++ "_q75", rollingCol t w vals (quantileCell (3 / 4))),
   (name ++ "_iqr",
     List.zipWith sub2 (rollingCol t w vals (quantileCell (3 / 4)))
       (rollingCol t w vals (quantileCell (1 / 4)))),
   (name ++ "_skew", rollingCol t w vals skewCell),
   (name ++ "_kurt", rollingCol t w vals kurtCell),
   (name ++ "_autocorr", rollingCol t w vals compute_autocorr)]

/-- The features table (index plus named feature columns). -/
structure Frame where
  index : List ℚ
  cols : List (String × List (Option ℚ))

/-- `pd.DataFrame(features, index=data.index)`: all feature columns of all
numeric signals, grouped per input column in input order. -/
def rawFeatures (data : Table) (w : ℚ) : Frame :=
  { index := data.index
    cols := data.cols.flatMap (fun p =>
      match p.2 with
      | Col.num vals => featsOfSignal data.index w p.1 vals
      | Col.txt _ => []) }

/-- The cell of a feature column at row position `i` (`none` also out of
range). -/
def cellAt (col : List (Option ℚ)) (i : ℕ) : Option ℚ := col.getD i none

/-- The pandas `dropna()` row criterion (default `how='any'`): row `i` is kept
iff every feature column has a defined value there. -/
def rowDefined (cols : List (String × List (Option ℚ))) (i : ℕ) : Bool :=
  cols.all (fun c => (cellAt c.2 i).isSome)

/-- The row positions surviving `dropna()`, in original order. -/
def keptRows (F : Frame) : List ℕ :=
  (List.range F.index.length).filter (rowDefined F.cols)

/-- `features_df.dropna()`: keep exactly the fully-defined rows, preserving
index values, row order and column structure. -/
def dropna (F : Frame) : Frame :=
  { index := (keptRows F).map (fun i => F.index.getD i 0)
    cols := F.cols.map (fun c => (c.1, (keptRows F).map (fun i => cellAt c.2 i))) }

/-- `extract_time_series_features(data, window_size)`. -/
def extract_time_series_features (data : Table) (w : ℚ) : Frame :=
  dropna (rawFeatures data w)

/-- The numeric signals of the table, in column order. -/
def numericCols (data : Table) : List (String × List ℚ) :=
  data.cols.filterMap (fun p =>
    match p.2 with
    | Col.num vals => some (p.1, vals)
    | Col.txt _ => none)

/-- The twelve statistic name suffixes, in the fixed source insertion order. -/
def statNames : List String :=
  ["mean", "std", "min", "max", "range", "median", "q25", "q75", "iqr",
   "skew", "kurt", "autocorr"]

theorem map_getD_range (l : List ℚ) :
    (List.range l.length).map (fun i => l.getD i 0) = l := by
  induction l with
  | nil => rfl
  | cons a tl ih =>
    rw [List.length_cons, List.range_succ_eq_map, List.map_cons, List.map_map]
    have hcomp : ((fun i => (a :: tl).getD i 0) ∘ Nat.succ) = (fun i => tl.getD i 0) := by
      funext i
      rfl
    rw [hcomp, ih]
    rfl

theorem rawFeatures_cols_eq (data : Table) (w : ℚ) :
    (rawFeatures data w).cols
      = (numericCols data).flatMap (fun p => featsOfSignal data.index w p.1 p.2) := by
  show (data.cols.flatMap _) = _
  unfold numericCols
  induction data.cols with
  | nil => rfl
  | cons c rest ih =>
    cases hc : c.2 with
    | num vals => simp [List.flatMap_cons, List.filterMap_cons, hc, ih]
    | txt vals => simp [List.flatMap_cons, List.filterMap_cons, hc, ih]

theorem featsOfSignal_names (t : List ℚ) (w : ℚ) (nm : String) (vals : List ℚ) :
    (featsOfSignal t w nm vals).map Prod.fst
      = statNames.map (fun s => nm ++ "_" ++ s) := by
  simp only [featsOfSignal, statNames, List.map_cons, List.map_nil]
  repeat rw [String.append_assoc]
  rfl

/-- C10: the output columns are grouped by input signal in input column order,
and within each signal's group the twelve derived columns appear in the fixed
statistic order mean, std, min, max, range, median, q25, q75, iqr, skew,
kurt, autocorr. -/
theorem c10_column_order (data : Table) (w : ℚ) :
    (extract_time_series_features data w).cols.map Prod.fst
      = (numericCols data).flatMap (fun p => statNames.map (fun s => p.1 ++ "_" ++ s)) := by
  show ((rawFeatures data w).cols.map _).map Prod.fst = _
  rw [List.map_map, rawFeatures_cols_eq]
  have : (Prod.fst ∘ fun c : String × List (Option ℚ) =>
      (c.1, (keptRows (rawFeatures data w)).map (fun i => cellAt c.2 i))) = Prod.fst := by
    funext c
    rfl
  rw [this, List.map_flatMap]
  congr 1
  funext p
  exact featsOfSignal_names data.index w p.1 p.2

/-- C9: a table with no numeric columns (here: one non-numeric column) yields a
feature table with zero columns that keeps the whole original index. -/
theorem c9_no_numeric_columns (data : Table) (w : ℚ)
    (h : ∀ c ∈ data.cols, ∀ vals, c.2 ≠ Col.num vals) :
    (extract_time_series_features data w).cols = [] ∧
    (extract_time_series_features data w).index = data.index := by
  have hcols : (rawFeatures data w).cols = [] := by
    rw [rawFeatures_cols_eq]
    have hnum : numericCols data = [] := by
      unfold numericCols
      rw [List.filterMap_eq_nil_iff]
      intro c hc
      cases hcv : c.2 with
      | num vals => exact absurd hcv (h c hc vals)
      | txt vals => rfl
    rw [hnum]
    rfl
  have hkept : keptRows (rawFeatures data w) = List.range data.index.length := by
    unfold keptRows
    have hidx : (rawFeatures data w).index = data.index := rfl
    rw [hidx]
    apply List.filter_eq_self.mpr
    intro i _
    simp [rowDefined, hcols]
  constructor
  · show ((rawFeatures data w).cols.map _) = []
    rw [hcols]
    rfl
  · show (keptRows (rawFeatures data w)).map _ = data.index
    rw [hkept]
    show (List.range (rawFeatures data w).index.length).map _ = _
    have : (rawFeatures data w).index = data.index := rfl
    rw [this]
    apply map_getD_range

theorem rollingCol_cellAt (t : List ℚ) (w : ℚ) (vals : List ℚ)
    (f : List ℚ → Option ℚ) (i : ℕ) (hi : i < t.length) :
    cellAt (rollingCol t w vals f) i = f (windowVals t w vals i) := by
  unfold cellAt rollingCol
  rw [List.getD_eq_getElem?_getD, List.getElem?_map, List.getElem?_range hi]
  rfl

/-- C1: `dropna` keeps exactly the rows at which every derived feature column
is defined; retained rows keep the original index values and original order
(the output index is a sublist of the input index obtained by the joint
all-columns-defined filter), and every cell of the output is defined. -/
theorem c1_joint_trim (data : Table) (w : ℚ) :
    (extract_time_series_features data w).index.Sublist data.index ∧
    (extract_time_series_features data w).index
      = ((List.range data.index.length).filter
          (rowDefined (rawFeatures data w).cols)).map (fun i => data.index.getD i 0) ∧
    (∀ i, rowDefined (rawFeatures data w).cols i = true ↔
      ∀ c ∈ (rawFeatures data w).cols, (cellAt c.2 i).isSome = true) ∧
    (∀ c ∈ (extract_time_series_features data w).cols, ∀ v ∈ c.2, v.isSome = true) := by
  refine ⟨?_, rfl, ?_, ?_⟩
  · have h := (List.filter_sublist (l := List.range data.index.length)
        (p := rowDefined (rawFeatures data w).cols)).map (fun i => data.index.getD i 0)
    rw [map_getD_range] at h
    exact h
  · intro i
    unfold rowDefined
    exact List.all_eq_true
  · intro c hc v hv
    obtain ⟨c0, hc0, rfl⟩ := List.mem_map.mp hc
    obtain ⟨i, hi, rfl⟩ := List.mem_map.mp hv
    have hdef : rowDefined (rawFeatures data w).cols i = true :=
      (List.mem_filter.mp hi).2
    exact List.all_eq_true.mp hdef c0 hc0

/-- Witness for C1 on a concrete table with no columns: the output index is a
sublist of the input index, and the all-columns-defined row criterion is
discharged (vacuously) at row 0. -/
theorem c1_witness :
    (extract_time_series_features ⟨[0], []⟩ 60).index.Sublist [0] ∧
    rowDefined (rawFeatures ⟨[0], []⟩ 60).cols 0 = true := by
  constructor
  · exact (c1_joint_trim ⟨[0], []⟩ 60).1
  · refine ((c1_joint_trim ⟨[0], []⟩ 60).2.2.1 0).mpr ?_
    intro c hc
    simp [rawFeatures] at hc

theorem compute_autocorr_const (ys : List ℚ) (c : ℚ) (h : ∀ v ∈ ys, v = c) :
    compute_autocorr ys = none := by
  cases ys with
  | nil => rfl
  | cons a tl =>
    have hae : AllEq (a :: tl) := by
      intro v hv
      have hv' := h v hv
      have ha := h a (List.mem_cons_self a tl)
      simp only [List.headD_cons]
      rw [hv', ha]
    by_cases hl : (a :: tl).length < 2
    · unfold compute_autocorr
      rw [if_pos hl]
    · unfold compute_autocorr
      rw [if_neg hl, if_pos hae]

theorem windowVals_replicate (t : List ℚ) (w : ℚ) (c : ℚ) (i : ℕ) (hi : i < t.length) :
    ∀ v ∈ windowVals t w (List.replicate t.length c) i, v = c := by
  intro v hv
  obtain ⟨j, hj, rfl⟩ := List.mem_map.mp hv
  obtain ⟨k, hk, rfl⟩ := List.mem_range'.mp hj
  have hs := windowStart_le t w i hi
  have hjn : windowStart t w i + 1 * k < t.length := by omega
  rw [List.getD_eq_getElem?_getD, List.getElem?_replicate]
  have hjn' : windowStart t w i + k < t.length := by omega
  simp [hjn']

/-- C2: on a single constant numeric signal the lag-1 autocorrelation column is
undefined at every row, so the joint trimming rule drops every row: the output
table is empty (empty index, and every feature column, accessed totally by
position, is the empty list). -/
theorem c2_constant_signal (t : List ℚ) (c : ℚ) (w : ℚ) :
    (extract_time_series_features ⟨t, [("x", Col.num (List.replicate t.length c))]⟩ w).index
      = [] ∧
    ∀ k : ℕ,
      ((extract_time_series_features ⟨t, [("x", Col.num (List.replicate t.length c))]⟩ w).cols.getD
        k ("", [])).2 = [] := by
  set data : Table := ⟨t, [("x", Col.num (List.replicate t.length c))]⟩ with hdata
  have hcols : (rawFeatures data w).cols
      = featsOfSignal t w "x" (List.replicate t.length c) := by
    show List.flatMap _ _ = _
    simp [hdata]
  have hmem : ("x" ++ "_autocorr",
      rollingCol t w (List.replicate t.length c) compute_autocorr)
      ∈ (rawFeatures data w).cols := by
    rw [hcols]
    simp [featsOfSignal]
  have hrow : ∀ i ∈ List.range (rawFeatures data w).index.length,
      ¬ rowDefined (rawFeatures data w).cols i = true := by
    intro i hi
    have hit : i < t.length := by
      have := List.mem_range.mp hi
      simpa [hdata, rawFeatures] using this
    intro hall
    have := List.all_eq_true.mp hall _ hmem
    rw [rollingCol_cellAt t w _ compute_autocorr i hit] at this
    rw [compute_autocorr_const _ c (windowVals_replicate t w c i hit)] at this
    simp at this
  have hkept : keptRows (rawFeatures data w) = [] := by
    unfold keptRows
    exact List.filter_eq_nil_iff.mpr (fun i hi => by
      simpa using hrow i hi)
  constructor
  · show (keptRows (rawFeatures data w)).map _ = []
    rw [hkept]
    rfl
  · intro k
    have hc2 : (extract_time_series_features data w).cols
        = (rawFeatures data w).cols.map (fun c =>
            (c.1, (keptRows (rawFeatures data w)).map (fun i => cellAt c.2 i))) := rfl
    rw [hc2, List.getD_eq_getElem?_getD, List.getElem?_map]
    cases hcase : (rawFeatures data w).cols[k]? with
    | none => rfl
    | some c0 =>
      simp [hkept]

/-- Witness for C2 at a concrete constant signal table: three 1 Hz rows of the
value 5 with a 60-second window produce an empty output index. -/
theorem c2_witness :
    (extract_time_series_features
      ⟨[0, 1, 2], [("x", Col.num (List.replicate ([0, 1, 2] : List ℚ).length 5))]⟩ 60).index
      = [] :=
  (c2_constant_signal [0, 1, 2] 5 60).1

/-- Witness for C9 at a concrete table with a single non-numeric column,
discharging the no-numeric-columns hypothesis. -/
theorem c9_witness :
    (extract_time_series_features ⟨[0, 1], [("id", Col.txt ["a", "b"])]⟩ 60).cols = [] ∧
    (extract_time_series_features ⟨[0, 1], [("id", Col.txt ["a", "b"])]⟩ 60).index
      = [0, 1] :=
  c9_no_numeric_columns ⟨[0, 1], [("id", Col.txt ["a", "b"])]⟩ 60 (by
    intro c hc vals
    have hcc := List.mem_singleton.mp hc
    rw [hcc]
    simp)

theorem getD_map_at (K : List ℕ) (f : ℕ → Option ℚ) (i : ℕ) (hi : i < K.length) :
    (K.map f).getD i none = f (K.get ⟨i, hi⟩) := by
  rw [List.getD_eq_getElem?_getD, List.getElem?_map, List.getElem?_eq_getElem hi]
  rfl

theorem rollingCol_length (t : List ℚ) (w : ℚ) (vals : List ℚ) (f : List ℚ → Option ℚ) :
    (rollingCol t w vals f).length = t.length := by
  unfold rollingCol
  rw [List.length_map, List.length_range]

theorem cellAt_zipWith (a b : List (Option ℚ)) (i : ℕ) (hia : i < a.length)
    (hib : i < b.length) :
    cellAt (List.zipWith sub2 a b) i = sub2 (cellAt a i) (cellAt b i) := by
  unfold cellAt
  have hz : i < (List.zipWith sub2 a b).length := by
    rw [List.length_zipWith]
    omega
  rw [List.getD_eq_getElem?_getD, List.getElem?_eq_getElem hz, List.getElem_zipWith,
      List.getD_eq_getElem?_getD, List.getElem?_eq_getElem hia,
      List.getD_eq_getElem?_getD, List.getElem?_eq_getElem hib]
  rfl

/-- C4: for every numeric input column, the output table contains derived
max/min/range and q75/q25/iqr columns such that at every retained row
`range = max - min` and `iqr = q75 - q25` hold exactly. -/
theorem c4_range_iqr_identities (data : Table) (w : ℚ) (nm : String) (vals : List ℚ)
    (hmem : (nm, vals) ∈ numericCols data) :
    ∃ cmax cmin crange cq25 cq75 ciqr,
      (nm ++ "_max", cmax) ∈ (extract_time_series_features data w).cols ∧
      (nm ++ "_min", cmin) ∈ (extract_time_series_features data w).cols ∧
      (nm ++ "_range", crange) ∈ (extract_time_series_features data w).cols ∧
      (nm ++ "_q25", cq25) ∈ (extract_time_series_features data w).cols ∧
      (nm ++ "_q75", cq75) ∈ (extract_time_series_features data w).cols ∧
      (nm ++ "_iqr", ciqr) ∈ (extract_time_series_features data w).cols ∧
      ∀ i < (extract_time_series_features data w).index.length,
        ∃ a b u v0, cmax.getD i none = some a ∧ cmin.getD i none = some b ∧
          crange.getD i none = some (a - b) ∧
          cq75.getD i none = some u ∧ cq25.getD i none = some v0 ∧
          ciqr.getD i none = some (u - v0) := by
  have hgroup : ∀ p ∈ featsOfSignal data.index w nm vals, p ∈ (rawFeatures data w).cols := by
    rw [rawFeatures_cols_eq]
    intro p hp
    exact List.mem_flatMap.mpr ⟨(nm, vals), hmem, hp⟩
  set K := keptRows (rawFeatures data w) with hK
  set colMax := rollingCol data.index w vals maxCell with hcolMax
  set colMin := rollingCol data.index w vals minCell with hcolMin
  set colQ25 := rollingCol data.index w vals (quantileCell (1 / 4)) with hcolQ25
  set colQ75 := rollingCol data.index w vals (quantileCell (3 / 4)) with hcolQ75
  set colRange := List.zipWith sub2 colMax colMin with hcolRange
  set colIqr := List.zipWith sub2 colQ75 colQ25 with hcolIqr
  have hout : (extract_time_series_features data w).cols
      = (rawFeatures data w).cols.map (fun c => (c.1, K.map (fun i => cellAt c.2 i))) := rfl
  have hmm : ∀ (s : String) (col : List (Option ℚ)),
      (s, col) ∈ featsOfSignal data.index w nm vals →
      (s, K.map (fun i => cellAt col i)) ∈ (extract_time_series_features data w).cols := by
    intro s col hp
    rw [hout]
    exact List.mem_map.mpr ⟨(s, col), hgroup _ hp, rfl⟩
  refine ⟨K.map (fun i => cellAt colMax i), K.map (fun i => cellAt colMin i),
      K.map (fun i => cellAt colRange i), K.map (fun i => cellAt colQ25 i),
      K.map (fun i => cellAt colQ75 i), K.map (fun i => cellAt colIqr i),
      hmm _ _ (by simp [featsOfSignal, -one_div]), hmm _ _ (by simp [featsOfSignal, -one_div]),
      hmm _ _ (by simp [featsOfSignal, -one_div]), hmm _ _ (by simp [featsOfSignal, -one_div]),
      hmm _ _ (by simp [featsOfSignal, -one_div]), hmm _ _ (by simp [featsOfSignal, -one_div]), ?_⟩
  intro i hi
  have hiK : i < K.length := by
    have : (extract_time_series_features data w).index = K.map
        (fun i => (rawFeatures data w).index.getD i 0) := rfl
    rw [this, List.length_map] at hi
    exact hi
  set r := K.get ⟨i, hiK⟩ with hr
  have hrK : r ∈ K := List.get_mem K i hiK
  have hrn : r < data.index.length := by
    have h1 := (List.mem_filter.mp hrK).1
    exact List.mem_range.mp h1
  have hdef : rowDefined (rawFeatures data w).cols r = true :=
    (List.mem_filter.mp hrK).2
  have hcell : ∀ (s : String) (col : List (Option ℚ)),
      (s, col) ∈ featsOfSignal data.index w nm vals → (cellAt col r).isSome = true := by
    intro s col hp
    exact List.all_eq_true.mp hdef (s, col) (hgroup _ hp)
  obtain ⟨a, ha⟩ := Option.isSome_iff_exists.mp (hcell _ _ (show (nm ++ "_max", colMax) ∈ _ by
    simp [featsOfSignal, -one_div]))
  obtain ⟨b, hb⟩ := Option.isSome_iff_exists.mp (hcell _ _ (show (nm ++ "_min", colMin) ∈ _ by
    simp [featsOfSignal, -one_div]))
  obtain ⟨u, hu⟩ := Option.isSome_iff_exists.mp (hcell _ _ (show (nm ++ "_q75", colQ75) ∈ _ by
    simp [featsOfSignal, -one_div]))
  obtain ⟨v0, hv0⟩ := Option.isSome_iff_exists.mp (hcell _ _ (show (nm ++ "_q25", colQ25) ∈ _ by
    simp [featsOfSignal, -one_div]))
  have hrange : cellAt colRange r = some (a - b) := by
    rw [hcolRange, cellAt_zipWith _ _ _ (by rw [hcolMax, rollingCol_length]; exact hrn)
        (by rw [hcolMin, rollingCol_length]; exact hrn), ha, hb]
    rfl
  have hiqr : cellAt colIqr r = some (u - v0) := by
    rw [hcolIqr, cellAt_zipWith _ _ _ (by rw [hcolQ75, rollingCol_length]; exact hrn)
        (by rw [hcolQ25, rollingCol_length]; exact hrn), hu, hv0]
    rfl
  refine ⟨a, b, u, v0, ?_, ?_, ?_, ?_, ?_, ?_⟩
  · rw [getD_map_at K _ i hiK, ← hr, ha]
  · rw [getD_map_at K _ i hiK, ← hr, hb]
  · rw [getD_map_at K _ i hiK, ← hr, hrange]
  · rw [getD_map_at K _ i hiK, ← hr, hu]
  · rw [getD_map_at K _ i hiK, ← hr, hv0]
  · rw [getD_map_at K _ i hiK, ← hr, hiqr]

/-- Witness for C4 at a concrete one-signal table, discharging the
numeric-column membership hypothesis. -/
theorem c4_witness :
    ∃ cmax cmin crange cq25 cq75 ciqr,
      ("x" ++ "_max", cmax)
        ∈ (extract_time_series_features ⟨[0, 1], [("x", Col.num [5, 7])]⟩ 60).cols ∧
      ("x" ++ "_min", cmin)
        ∈ (extract_time_series_features ⟨[0, 1], [("x", Col.num [5, 7])]⟩ 60).cols ∧
      ("x" ++ "_range", crange)
        ∈ (extract_time_series_features ⟨[0, 1], [("x", Col.num [5, 7])]⟩ 60).cols ∧
      ("x" ++ "_q25", cq25)
        ∈ (extract_time_series_features ⟨[0, 1], [("x", Col.num [5, 7])]⟩ 60).cols ∧
      ("x" ++ "_q75", cq75)
        ∈ (extract_time_series_features ⟨[0, 1], [("x", Col.num [5, 7])]⟩ 60).cols ∧
      ("x" ++ "_iqr", ciqr)
        ∈ (extract_time_series_features ⟨[0, 1], [("x", Col.num [5, 7])]⟩ 60).cols ∧
      ∀ i < (extract_time_series_features ⟨[0, 1], [("x", Col.num [5, 7])]⟩ 60).index.length,
        ∃ a b u v0, cmax.getD i none = some a ∧ cmin.getD i none = some b ∧
          crange.getD i none = some (a - b) ∧
          cq75.getD i none = some u ∧ cq25.getD i none = some v0 ∧
          ciqr.getD i none = some (u - v0) :=
  c4_range_iqr_identities ⟨[0, 1], [("x", Col.num [5, 7])]⟩ 60 "x" [5, 7] (by
    simp [numericCols])

/-- The specification's unbiased sample variance (the square of the sample
standard deviation): sum of squared deviations over `n - 1`. -/
def specSampleVar (xs : List ℚ) : ℚ := sumSqDev xs / ((xs.length : ℚ) - 1)

/-- The conventional unbiased sample skewness
`G1 = n / ((n-1)(n-2)) * sum (x-mean)^3 / s^3` (`s` the sample standard
deviation), represented by its sign-preserving square
`(n / ((n-1)(n-2)))^2 * S3 * |S3| / (s^2)^3`, which is rational. -/
def specSampleSkewRep (xs : List ℚ) : ℚ :=
  ((xs.length : ℚ) / (((xs.length : ℚ) - 1) * ((xs.length : ℚ) - 2))) ^ 2
    * (sumCubeDev xs * |sumCubeDev xs|) / specSampleVar xs ^ 3

/-- The conventional unbiased sample excess kurtosis
`G2 = n(n+1) / ((n-1)(n-2)(n-3)) * sum (x-mean)^4 / s^4 - 3(n-1)^2 / ((n-2)(n-3))`. -/
def specSampleKurt (xs : List ℚ) : ℚ :=
  (xs.length : ℚ) * ((xs.length : ℚ) + 1)
      / (((xs.length : ℚ) - 1) * ((xs.length : ℚ) - 2) * ((xs.length : ℚ) - 3))
    * (sumQuadDev xs / specSampleVar xs ^ 2)
    - 3 * ((xs.length : ℚ) - 1) ^ 2 / (((xs.length : ℚ) - 2) * ((xs.length : ℚ) - 3))

/-- The biased population variance `m2 = sum (x-mean)^2 / n`, for contrast. -/
def popVar (xs : List ℚ) : ℚ := sumSqDev xs / (xs.length : ℚ)

/-- The population skewness `g1 = m3 / m2^1.5` represented by its
sign-preserving square `n * S3 * |S3| / S2^3`, for contrast. -/
def popSkewRep (xs : List ℚ) : ℚ :=
  (xs.length : ℚ) * (sumCubeDev xs * |sumCubeDev xs|) / sumSqDev xs ^ 3

/-- The population excess kurtosis `m4 / m2^2 - 3 = n * S4 / S2^2 - 3`, for
contrast. -/
def popKurt (xs : List ℚ) : ℚ :=
  (xs.length : ℚ) * sumQuadDev xs / sumSqDev xs ^ 2 - 3

theorem sum_sq_shift (m : ℚ) (xs : List ℚ) :
    (xs.map (fun x => (x - m) ^ 2)).sum
      = (xs.map (fun x => x ^ 2)).sum - 2 * m * xs.sum + (xs.length : ℚ) * m ^ 2 := by
  induction xs with
  | nil => simp
  | cons a tl ih =>
    simp only [List.map_cons, List.sum_cons, List.length_cons, ih]
    push_cast
    ring

theorem sumSqDev_eq (xs : List ℚ) :
    sumSqDev xs = (xs.map (fun x => x ^ 2)).sum - (xs.length : ℚ) * mean xs ^ 2 := by
  unfold sumSqDev
  rw [sum_sq_shift]
  rcases Nat.eq_zero_or_pos xs.length with h0 | hpos
  · have hnil : xs = [] := List.length_eq_zero.mp h0
    subst hnil
    simp [mean]
  · have hn : (xs.length : ℚ) ≠ 0 := by
      exact_mod_cast Nat.pos_iff_ne_zero.mp hpos
    have hsum : xs.sum = (xs.length : ℚ) * mean xs := by
      unfold mean
      field_simp
    rw [hsum]
    ring

/-- C6: the rolling standard deviation, skewness, and kurtosis cells use the
unbiased sample estimators with degrees-of-freedom correction: the stored
variance equals the conventional sample variance `S2 / (n-1)`, the stored
skewness representative equals that of the conventional adjusted sample
skewness, and the kurtosis equals the conventional dof-adjusted sample excess
kurtosis; at concrete windows all three differ from the population-moment
formulas. -/
theorem c6_sample_estimators (xs : List ℚ) :
    (2 ≤ xs.length → varCell xs = some (specSampleVar xs)) ∧
    (3 ≤ xs.length → sumSqDev xs ≠ 0 → skewCell xs = some (specSampleSkewRep xs)) ∧
    (4 ≤ xs.length → sumSqDev xs ≠ 0 → kurtCell xs = some (specSampleKurt xs)) ∧
    varCell [0, 1] ≠ some (popVar [0, 1]) ∧
    skewCell [0, 1, 3] ≠ some (popSkewRep [0, 1, 3]) ∧
    kurtCell [0, 1, 3, 7] ≠ some (popKurt [0, 1, 3, 7]) := by
  refine ⟨?_, ?_, ?_, ?_, ?_, ?_⟩
  · intro h2
    unfold varCell
    rw [if_neg (by omega)]
    congr 1
    unfold specSampleVar
    rw [← sumSqDev_eq]
  · intro h3 hS
    have h3q : (3 : ℚ) ≤ (xs.length : ℚ) := by exact_mod_cast h3
    have hn1 : ((xs.length : ℚ) - 1) ≠ 0 := by
      intro hc
      rw [sub_eq_zero] at hc
      linarith
    have hn2 : ((xs.length : ℚ) - 2) ≠ 0 := by
      intro hc
      rw [sub_eq_zero] at hc
      linarith
    unfold skewCell
    rw [if_neg (by omega), if_neg hS]
    congr 1
    unfold specSampleSkewRep specSampleVar
    field_simp
    ring
  · intro h4 hS
    have h4q : (4 : ℚ) ≤ (xs.length : ℚ) := by exact_mod_cast h4
    have hn1 : ((xs.length : ℚ) - 1) ≠ 0 := by
      intro hc
      rw [sub_eq_zero] at hc
      linarith
    have hn2 : ((xs.length : ℚ) - 2) ≠ 0 := by
      intro hc
      rw [sub_eq_zero] at hc
      linarith
    have hn3 : ((xs.length : ℚ) - 3) ≠ 0 := by
      intro hc
      rw [sub_eq_zero] at hc
      linarith
    unfold kurtCell
    rw [if_neg (by omega), if_neg hS]
    congr 1
    unfold specSampleKurt specSampleVar
    field_simp
    ring
  · norm_num [varCell, popVar, sumSqDev, mean]
  · have habs : |(20 : ℚ) / 9| = 20 / 9 := by
      rw [abs_of_pos]
      norm_num
    norm_num [skewCell, popSkewRep, sumCubeDev, sumSqDev, mean, habs]
  · norm_num [kurtCell, popKurt, sumQuadDev, sumSqDev, mean]

/-- Witness for C6 at the concrete non-degenerate window `[0, 1, 3, 6]`. -/
theorem c6_witness :
    varCell [0, 1, 3, 6] = some (specSampleVar [0, 1, 3, 6]) ∧
    skewCell [0, 1, 3, 6] = some (specSampleSkewRep [0, 1, 3, 6]) ∧
    kurtCell [0, 1, 3, 6] = some (specSampleKurt [0, 1, 3, 6]) :=
  ⟨(c6_sample_estimators [0, 1, 3, 6]).1 (by decide),
   (c6_sample_estimators [0, 1, 3, 6]).2.1 (by decide) (by norm_num [sumSqDev, mean]),
   (c6_sample_estimators [0, 1, 3, 6]).2.2.1 (by decide) (by norm_num [sumSqDev, mean])⟩

/-- Modelled from the spec: the fitted ARIMA model object returned by the
external library fit (`ARIMA(series, order=order).fit()`).  Estimation itself
is delegated and not reimplemented; the model carries its in-sample fitted
values, residuals, the per-step mean forecast, and the per-step confidence
interval at a given significance level `alpha`. -/
structure ArimaFit where
  fittedvalues : List ℚ
  resid : List ℚ
  forecastMeanAt : ℕ → ℚ
  confIntAt : ℚ → ℕ → ℚ × ℚ

/-- Modelled from the spec: `get_forecast(steps).predicted_mean` — one mean
prediction per forecast step. -/
def predictedMean (m : ArimaFit) (steps : ℕ) : List ℚ :=
  (List.range steps).map m.forecastMeanAt

/-- Modelled from the spec: `get_forecast(steps).conf_int()` at significance
level `alpha` — one (lower, upper) pair per forecast step. -/
def confInt (m : ArimaFit) (alpha : ℚ) (steps : ℕ) : List (ℚ × ℚ) :=
  (List.range steps).map (m.confIntAt alpha)

/-- The index of the modelled series: either time-based (a `DatetimeIndex`
with its frequency attribute, assumed set as the spec's inferred frequency)
or a default numeric range index of the series' length. -/
inductive SeriesIndex where
  | datetime (times : List ℚ) (freq : ℚ) : SeriesIndex
  | numeric (len : ℕ) : SeriesIndex

/-- Modelled from the spec: `pd.date_range(start, periods, freq)` — `periods`
points `start, start + freq, ...`. -/
def dateRange (start : ℚ) (periods : ℕ) (freq : ℚ) : List ℚ :=
  (List.range periods).map (fun k : ℕ => start + (k : ℚ) * freq)

/-- The source constant `forecast_steps = 10`. -/
def forecast_steps : ℕ := 10

/-- The forecast portion of `build_arima_model`: the 10-step mean forecast,
its confidence band at the default `conf_int()` level `alpha = 0.05` (a 95%
band), and the forecast index — the datetime index extended by 10 steps at its
frequency (`pd.date_range(start=index[-1], periods=11, freq=index.freq)[1:]`),
or the numeric index extended by 10 integer steps
(`np.arange(len(series), len(series) + 10)`). -/
def buildForecast (m : ArimaFit) (idx : SeriesIndex) :
    List ℚ × List (ℚ × ℚ) × List ℚ :=
  (predictedMean m forecast_steps,
   confInt m (5 / 100) forecast_steps,
   match idx with
   | SeriesIndex.datetime ts f => (dateRange (ts.getLastD 0) (forecast_steps + 1) f).drop 1
   | SeriesIndex.numeric n => (List.range forecast_steps).map (fun k => ((n + k : ℕ) : ℚ)))

/-- C7: the forecast has exactly 10 mean predictions and 10 confidence
intervals, the band is the one returned at the 95% level (`alpha = 0.05`), and
the forecast index extends a time-based index by 10 steps at the index
frequency, or a numeric index by the 10 integers following the series
length. -/
theorem c7_forecast_shape (m : ArimaFit) (idx : SeriesIndex) :
    (buildForecast m idx).1.length = 10 ∧
    (buildForecast m idx).2.1.length = 10 ∧
    (buildForecast m idx).2.1 = (List.range 10).map (m.confIntAt (5 / 100)) ∧
    (∀ ts f, (buildForecast m (SeriesIndex.datetime ts f)).2.2
      = (List.range 10).map (fun k : ℕ => ts.getLastD 0 + ((k : ℚ) + 1) * f)) ∧
    (∀ n, (buildForecast m (SeriesIndex.numeric n)).2.2
      = (List.range 10).map (fun k : ℕ => ((n : ℚ) + (k : ℚ)))) := by
  refine ⟨?_, ?_, rfl, ?_, ?_⟩
  · show (predictedMean m forecast_steps).length = 10
    unfold predictedMean forecast_steps
    rw [List.length_map, List.length_range]
  · show (confInt m (5 / 100) forecast_steps).length = 10
    unfold confInt forecast_steps
    rw [List.length_map, List.length_range]
  · intro ts f
    show (dateRange (ts.getLastD 0) (forecast_steps + 1) f).drop 1 = _
    unfold dateRange forecast_steps
    rw [List.range_succ_eq_map, List.map_cons, List.drop_succ_cons, List.drop_zero,
        List.map_map]
    congr 1
    funext k
    simp only [Function.comp_apply]
    push_cast
    ring
  · intro n
    show (List.range forecast_steps).map (fun k : ℕ => ((n + k : ℕ) : ℚ))
      = (List.range 10).map (fun k : ℕ => ((n : ℚ) + (k : ℚ)))
    unfold forecast_steps
    congr 1
    funext k
    push_cast
    rfl

/-- Modelled from the spec: a flat filesystem state — the set of existing
directories and the set of existing files (contents are not modelled; a write
to an existing path overwrites it and the path stays present). -/
structure FS where
  dirs : List String
  files : List String

/-- The chain of ancestor paths of `p` ending in `p` itself (splitting on the
path separator), as created by a recursive directory creation. -/
def pathChain (p : String) : List String :=
  ((List.range ((p.splitOn "/").length - 1)).map
    (fun k => String.intercalate "/" ((p.splitOn "/").take (k + 1)))) ++ [p]

/-- Add a directory to the directory set if not already present. -/
def insertNew (acc : List String) (q : String) : List String :=
  if q ∈ acc then acc else acc ++ [q]

/-- Modelled from the spec: `os.makedirs(d, exist_ok=True)` — create `d` and
every missing ancestor; total, with no error when a directory already
exists. -/
def makedirs (d : String) (fs : FS) : FS :=
  { fs with dirs := (pathChain d).foldl insertNew fs.dirs }

/-- Modelled from the spec: `plt.savefig(p)` — write the rendered figure to
`p`, overwriting any existing file there. -/
def savefig (p : String) (fs : FS) : FS :=
  { fs with files := if p ∈ fs.files then fs.files else fs.files ++ [p] }

/-- A filesystem effect of the model-fitting routine. -/
inductive FSOp where
  | mkdirs (d : String) : FSOp
  | write (p : String) : FSOp

/-- Interpretation of one filesystem effect. -/
def runOp (fs : FS) : FSOp → FS
  | FSOp.mkdirs d => makedirs d fs
  | FSOp.write p => savefig p fs

/-- The filesystem effects of `build_arima_model(series, order, output_dir)`
in source order: ensure the output directory, then save the three plots. -/
def buildArimaOps (output_dir : String) : List FSOp :=
  [FSOp.mkdirs output_dir,
   FSOp.write (output_dir ++ "/model_fit.png"),
   FSOp.write (output_dir ++ "/residuals_diagnostics.png"),
   FSOp.write (output_dir ++ "/forecast.png")]

/-- Running a sequence of filesystem effects. -/
def runOps (ops : List FSOp) (fs : FS) : FS := ops.foldl runOp fs

/-- The file paths written by a sequence of effects. -/
def writtenPaths (ops : List FSOp) : List String :=
  ops.filterMap (fun op =>
    match op with
    | FSOp.write p => some p
    | FSOp.mkdirs _ => none)

theorem mem_foldl_insert (l : List String) (acc : List String) (q : String)
    (h : q ∈ acc ∨ q ∈ l) :
    q ∈ l.foldl insertNew acc := by
  induction l generalizing acc with
  | nil =>
    rcases h with h | h
    · exact h
    · simp at h
  | cons a tl ih =>
    show q ∈ tl.foldl insertNew (insertNew acc a)
    apply ih
    unfold insertNew
    by_cases hq : q = a
    · subst hq
      left
      by_cases hmem : q ∈ acc
      · rw [if_pos hmem]
        exact hmem
      · rw [if_neg hmem]
        exact List.mem_append_right _ (List.mem_singleton.mpr rfl)
    · rcases h with h | h
      · left
        by_cases hmem : a ∈ acc
        · rw [if_pos hmem]
          exact h
        · rw [if_neg hmem]
          exact List.mem_append_left _ h
      · rcases List.mem_cons.mp h with h | h
        · exact absurd h hq
        · right
          exact h

theorem savefig_files_subset (p : String) (fs : FS) :
    ∀ q ∈ (savefig p fs).files, q ∈ fs.files ∨ q = p := by
  intro q hq
  unfold savefig at hq
  by_cases hmem : p ∈ fs.files
  · rw [if_pos hmem] at hq
    exact Or.inl hq
  · rw [if_neg hmem] at hq
    rcases List.mem_append.mp hq with h | h
    · exact Or.inl h
    · exact Or.inr (List.mem_singleton.mp h)

theorem mem_savefig_self (p : String) (fs : FS) : p ∈ (savefig p fs).files := by
  unfold savefig
  by_cases hmem : p ∈ fs.files
  · rw [if_pos hmem]
    exact hmem
  · rw [if_neg hmem]
    exact List.mem_append_right _ (List.mem_singleton.mpr rfl)

theorem mem_savefig_of_mem (p q : String) (fs : FS) (h : q ∈ fs.files) :
    q ∈ (savefig p fs).files := by
  unfold savefig
  by_cases hmem : p ∈ fs.files
  · rw [if_pos hmem]
    exact h
  · rw [if_neg hmem]
    exact List.mem_append_left _ h

/-- C8: after running the filesystem effects of `build_arima_model`, the
output directory exists (created together with its ancestors, with no failure
when it already exists: the interpretation is total and preserves existing
directories), the effect trace writes exactly the three fixed image paths
`model_fit.png`, `residuals_diagnostics.png`, `forecast.png` under the output
directory, all three exist afterwards, and no other file appears (pre-existing
files at those paths are simply overwritten). -/
theorem c8_output_files (fs : FS) (dir : String) :
    dir ∈ (runOps (buildArimaOps dir) fs).dirs ∧
    writtenPaths (buildArimaOps dir)
      = [dir ++ "/model_fit.png", dir ++ "/residuals_diagnostics.png",
         dir ++ "/forecast.png"] ∧
    (∀ p ∈ writtenPaths (buildArimaOps dir), p ∈ (runOps (buildArimaOps dir) fs).files) ∧
    (∀ p ∈ (runOps (buildArimaOps dir) fs).files,
      p ∈ fs.files ∨ p ∈ writtenPaths (buildArimaOps dir)) ∧
    (∀ d ∈ fs.dirs, d ∈ (runOps (buildArimaOps dir) fs).dirs) := by
  have hrun : runOps (buildArimaOps dir) fs
      = savefig (dir ++ "/forecast.png")
          (savefig (dir ++ "/residuals_diagnostics.png")
            (savefig (dir ++ "/model_fit.png") (makedirs dir fs))) := rfl
  have hdirs2 : (savefig (dir ++ "/forecast.png")
          (savefig (dir ++ "/residuals_diagnostics.png")
            (savefig (dir ++ "/model_fit.png") (makedirs dir fs)))).dirs
      = (makedirs dir fs).dirs := rfl
  refine ⟨?_, rfl, ?_, ?_, ?_⟩
  · rw [hrun, hdirs2]
    show dir ∈ (pathChain dir).foldl insertNew fs.dirs
    apply mem_foldl_insert
    right
    unfold pathChain
    exact List.mem_append_right _ (List.mem_singleton.mpr rfl)
  · intro p hp
    rw [hrun]
    have hp3 : p = dir ++ "/model_fit.png" ∨ p = dir ++ "/residuals_diagnostics.png"
        ∨ p = dir ++ "/forecast.png" := by
      simpa [writtenPaths, buildArimaOps] using hp
    rcases hp3 with rfl | rfl | rfl
    · exact mem_savefig_of_mem _ _ _ (mem_savefig_of_mem _ _ _ (mem_savefig_self _ _))
    · exact mem_savefig_of_mem _ _ _ (mem_savefig_self _ _)
    · exact mem_savefig_self _ _
  · intro p hp
    rw [hrun] at hp
    have hfiles0 : (makedirs dir fs).files = fs.files := rfl
    rcases savefig_files_subset _ _ _ hp with h | rfl
    · rcases savefig_files_subset _ _ _ h with h | rfl
      · rcases savefig_files_subset _ _ _ h with h | rfl
        · rw [hfiles0] at h
          exact Or.inl h
        · right
          simp [writtenPaths, buildArimaOps]
      · right
        simp [writtenPaths, buildArimaOps]
    · right
      simp [writtenPaths, buildArimaOps]
  · intro d hd
    rw [hrun, hdirs2]
    show d ∈ (pathChain dir).foldl insertNew fs.dirs
    exact mem_foldl_insert _ _ _ (Or.inl hd)

/-- Witness for C8 on an initially empty filesystem and the default directory
name: the directory exists afterwards, and the first written path (discharged
as a member of the written-path trace) exists afterwards. -/
theorem c8_witness :
    "plots" ∈ (runOps (buildArimaOps "plots") ⟨[], []⟩).dirs ∧
    ("plots" ++ "/model_fit.png") ∈ (runOps (buildArimaOps "plots") ⟨[], []⟩).files := by
  constructor
  · exact (c8_output_files ⟨[], []⟩ "plots").1
  · refine (c8_output_files ⟨[], []⟩ "plots").2.2.1 _ ?_
    simp [writtenPaths, buildArimaOps]

end TS
